import Mathlib

/-!
# Verification of the obsidian-wordy word/context extraction and caching pipeline

This file is a shallow embedding of `src/main.ts` of the `obsidian-wordy`
repository.  JavaScript strings are modelled as `List Char` (with `String`
wrappers where the source passes strings around), JavaScript numbers used as
indices are modelled as `Int` (so that out-of-range and negative positions are
representable), `undefined`-able values are modelled with `Option`, and the
mutable `Map` inside `SimpleWordCache` is modelled as an association list that
is threaded through the operations.  Object identity (needed for the
`EMPTY_CACHE` aliasing behaviour of the settings tab's "Clear cache" button)
is modelled with an explicit heap mapping allocation addresses to cache
contents.
-/

/-! ## Characters: JS `\s`, sentence endings, the strip class -/

/-- The characters matched by JavaScript's `\s` (the WhiteSpace and
LineTerminator productions), used by `/\s/.test(text[index])` in
`findWordBoundaries` and by the `[.!?\s]` class of the trimming regex. -/
def isJsSpace (c : Char) : Bool :=
  c = ' ' || c = '\t' || c = '\n' || c.val = 13 || c.val = 11 || c.val = 12 ||
  c.val = 0xA0 || c.val = 0x1680 || (0x2000 ≤ c.val && c.val ≤ 0x200A) ||
  c.val = 0x2028 || c.val = 0x2029 || c.val = 0x202F || c.val = 0x205F ||
  c.val = 0x3000 || c.val = 0xFEFF

/-- `sentenceEndings = ['.', '!', '?']` from `getSentenceUnderCursor`:
`sentenceEndings.includes(c)`. -/
def isEnding (c : Char) : Bool :=
  c = '.' || c = '!' || c = '?'

/-- The character class `[.!?\s]` of the trimming regex
`/^[.!?\s]+|[.!?\s]+$/g` in `getSentenceUnderCursor`. -/
def isStrip (c : Char) : Bool :=
  isEnding c || isJsSpace c

theorem isStrip_of_isEnding {c : Char} (h : isEnding c = true) : isStrip c = true := by
  simp [isStrip, h]

theorem isStrip_of_isJsSpace {c : Char} (h : isJsSpace c = true) : isStrip c = true := by
  simp [isStrip, h]

theorem not_isEnding_of_not_isStrip {c : Char} (h : isStrip c = false) :
    isEnding c = false := by
  by_contra hne
  simp only [Bool.not_eq_false] at hne
  rw [isStrip_of_isEnding hne] at h
  exact Bool.true_eq_false.mp h

theorem not_isJsSpace_of_not_isStrip {c : Char} (h : isStrip c = false) :
    isJsSpace c = false := by
  by_contra hne
  simp only [Bool.not_eq_false] at hne
  rw [isStrip_of_isJsSpace hne] at h
  exact Bool.true_eq_false.mp h

/-! ## JS string helpers: `substring`, the trimming regex, `split(" ")` -/

/-- The segment of a list between two `Nat` indices: the characters at
indices `[a, b)`. -/
def segN (L : List Char) (a b : Nat) : List Char :=
  (L.take b).drop a

/-- JavaScript `String.prototype.substring(start, end)`: both arguments are
clamped to `[0, length]` and swapped if out of order; the result is the
characters between them. -/
def jsSubstring (L : List Char) (a b : Int) : List Char :=
  let a' := min (a.toNat) L.length
  let b' := min (b.toNat) L.length
  segN L (min a' b') (max a' b')

/-- Drop the longest suffix all of whose characters satisfy `p`. -/
def dropRightWhile (p : Char → Bool) (l : List Char) : List Char :=
  (l.reverse.dropWhile p).reverse

/-- The effect of `line.substring(start, end).replace(/^[.!?\s]+|[.!?\s]+$/g, '')`'s
replace step: remove the maximal leading and trailing runs of sentence-ending
punctuation and whitespace. -/
def stripEnds (l : List Char) : List Char :=
  dropRightWhile isStrip (l.dropWhile isStrip)

/-- JavaScript `String.prototype.split` with a single-character separator:
`"".split(" ") = [""]`, `"a b".split(" ") = ["a","b"]`,
`"a".split(" ") = ["a"]`. -/
def jsSplitChar (sep : Char) : List Char → List (List Char)
  | [] => [[]]
  | c :: rest =>
    let r := jsSplitChar sep rest
    if c = sep then [] :: r
    else
      match r with
      | [] => [[c]]
      | h :: t => (c :: h) :: t

/-! ## `SimpleWordCache` (src/main.ts lines 42–56)

`map` is a JS `Map<string, string[]>`; `get(word)` consults `word[0]`
(which is `undefined` when the key list is empty — modelled by `Option`),
returning the stored list or `[]`, and `set(word, results)` stores under
`word[0]`. -/

/-- The contents of one `SimpleWordCache`'s `map`.  Keys are `Option String`
because JS `word[0]` is `undefined` for an empty key list.  Lookup takes the
first (most recent) binding, modelling `Map.set` overwrite semantics. -/
abbrev SWCMap := List (Option String × List String)

/-- `SimpleWordCache.get(word)`: `this.map.get(word[0]) || []`. -/
def swcGet (m : SWCMap) (word : List String) : List String :=
  ((m.find? (fun p => p.1 = word.head?)).map (fun p => p.2)).getD []

/-- `SimpleWordCache.set(word, results)`: `this.map.set(word[0], results)`. -/
def swcSet (m : SWCMap) (word : List String) (results : List String) : SWCMap :=
  (word.head?, results) :: m

/-! ## The per-category cache object graph and the "Clear cache" button

`EMPTY_CACHE` is a module-level constant holding three `SimpleWordCache`
instances allocated once at module load (src/main.ts lines 63–67).  The
plugin field `caches` is initialised to (a reference to) this same object,
and the settings tab's "Clear cache" button executes
`this.plugin.caches = EMPTY_CACHE` (lines 505–514).  To capture the aliasing
we model a heap from allocation addresses to cache contents; the three
module-load allocations live at addresses 0, 1 and 2. -/

inductive Category where
  | syn
  | ant
  | rhy
deriving DecidableEq

/-- The `WordyCache` record: which heap address each category's
`SimpleWordCache` reference points to. -/
structure WordyCacheRef where
  syn : Nat
  ant : Nat
  rhy : Nat
deriving DecidableEq

/-- The module-level `EMPTY_CACHE` object: references to the three
`SimpleWordCache` instances allocated at module load. -/
def EMPTY_CACHE : WordyCacheRef := ⟨0, 1, 2⟩

def catAddr (r : WordyCacheRef) : Category → Nat
  | .syn => r.syn
  | .ant => r.ant
  | .rhy => r.rhy

/-- The plugin state relevant to caching: the heap of allocated
`SimpleWordCache` instances and the `caches` field of the plugin. -/
structure PluginState where
  heap : Nat → SWCMap
  caches : WordyCacheRef

/-- The state after module load and plugin construction: the three caches
are freshly allocated and empty, and `caches = EMPTY_CACHE`. -/
def initialPluginState : PluginState :=
  { heap := fun _ => [], caches := EMPTY_CACHE }

/-- `this.caches[cat].get(key)` in the running plugin. -/
def cacheGetP (s : PluginState) (c : Category) (key : List String) : List String :=
  swcGet (s.heap (catAddr s.caches c)) key

/-- `this.caches[cat].set(key, results)` in the running plugin: mutates the
`SimpleWordCache` instance the `caches` field currently points to. -/
def cacheSetP (s : PluginState) (c : Category) (key : List String)
    (results : List String) : PluginState :=
  { s with
    heap := fun a =>
      if a = catAddr s.caches c then swcSet (s.heap a) key results else s.heap a }

/-- The "Clear cache" button's click handler
(`this.plugin.caches = EMPTY_CACHE`): it re-points the `caches` field at the
module-level `EMPTY_CACHE` object.  No new `SimpleWordCache` is allocated. -/
def clearCacheClick (s : PluginState) : PluginState :=
  { s with caches := EMPTY_CACHE }

/-! ## `getCacheOrFetch` (src/main.ts lines 203–212)

The external fetch is a parameter; the returned `Nat` counts how many times
the fetch function was invoked by this call. -/

/-- `getCacheOrFetch(cache, word, fetchFn)`: returns the produced result
list, the cache contents after the call, and the number of fetches issued. -/
def getCacheOrFetch (cache : SWCMap) (word : String)
    (fetchFn : String → List String) : List String × SWCMap × Nat :=
  let cached := swcGet cache [word]
  if cached.length > 0 then
    (cached, cache, 0)
  else
    let results := fetchFn word
    (results, swcSet cache [word] results, 1)

/-! ## `findWordBoundaries` (src/main.ts lines 218–233)

```
function findWordBoundaries(text, start, direction) {
    let count = 0;
    let index = start;
    while (count < 5 && index >= 0 && index < text.length) {
        if (sentenceEndings.includes(text[index])) return index;
        if (/\s/.test(text[index])) count++;
        index += direction;
    }
    return direction === -1 ? index + 1 : index;
}
```

The loop is translated by structural recursion.  For `direction = -1` the
index walks down to `-1`, so the recursion is on `n = index + 1`
(`n = 0` is the exit at `index = -1`, which returns `index + 1 = 0`).
For `direction = 1` the index walks up to `text.length`, so the recursion is
on `n = text.length - index` (`n = 0` is the exit at `index = length`,
which returns `index = length`).  Besides the computed boundary, each
function also returns the list of indices at which `text` was inspected,
so that the bounds-safety of the scan is a statement about the definition
itself. -/

/-- The loop of `findWordBoundaries` with `direction = -1`, at
`index = n - 1` and the given `count`.  Returns the computed boundary and
the trace of inspected indices. -/
def fwbBack (text : List Char) (count : Nat) : Nat → Int × List Int
  | 0 => (0, [])
  | n + 1 =>
    if count < 5 ∧ n < text.length then
      let c := text.getD n ' '
      if isEnding c then ((n : Int), [(n : Int)])
      else
        let r := fwbBack text (if isJsSpace c then count + 1 else count) n
        (r.1, (n : Int) :: r.2)
    else ((n : Int) + 1, [])

/-- The loop of `findWordBoundaries` with `direction = 1`, at
`index = text.length - n` and the given `count` (only used with
`n ≤ text.length`).  Returns the computed boundary and the trace of
inspected indices. -/
def fwbFwd (text : List Char) (count : Nat) : Nat → Int × List Int
  | 0 => ((text.length : Int), [])
  | n + 1 =>
    let index : Int := (text.length : Int) - (n + 1)
    if count < 5 then
      let c := text.getD index.toNat ' '
      if isEnding c then (index, [index])
      else
        let r := fwbFwd text (if isJsSpace c then count + 1 else count) n
        (r.1, index :: r.2)
    else (index, [])

/-- `findWordBoundaries(text, start, direction)` for the two directions at
which the source calls it (`-1` and `1`), with `count` starting at `0`.
When `start` is outside `[0, text.length]` the while loop never runs and the
function returns `start + 1` (backward) resp. `start` (forward). -/
def findWordBoundaries (text : List Char) (start : Int) (direction : Int) :
    Int × List Int :=
  if direction = -1 then
    if start < 0 then (start + 1, [])
    else fwbBack text 0 (start.toNat + 1)
  else
    if start < 0 ∨ (text.length : Int) < start then (start, [])
    else fwbFwd text 0 (text.length - start.toNat)

/-! ## `getSentenceUnderCursor` (src/main.ts lines 214–245), pure core -/

/-- The sentence extracted from `line` for a word span with columns
`[fromCh, toCh]`: scan backward from `fromCh`, forward from `toCh`, take the
substring between the two boundaries and strip leading/trailing
`[.!?\s]` runs. -/
def sentenceFromLine (line : List Char) (fromCh toCh : Int) : List Char :=
  let start := (findWordBoundaries line fromCh (-1)).1
  let stop := (findWordBoundaries line toCh 1).1
  stripEnds (jsSubstring line start stop)

/-- All indices at which `line` is inspected while extracting the sentence
for the span `[fromCh, toCh]`. -/
def inspectedIndices (line : List Char) (fromCh toCh : Int) : List Int :=
  (findWordBoundaries line fromCh (-1)).2 ++ (findWordBoundaries line toCh 1).2

/-- Where the word span `[fromCh, toCh)` of `line` lands inside
`sentenceFromLine line fromCh toCh`: the span's start shifts left by the
substring start and by the number of characters removed by the leading
strip. -/
def translatedFrom (line : List Char) (fromCh toCh : Int) : Int :=
  let start := (findWordBoundaries line fromCh (-1)).1
  let stop := (findWordBoundaries line toCh 1).1
  let u := jsSubstring line start stop
  fromCh - start - ((u.length : Int) - ((u.dropWhile isStrip).length : Int))

/-! ## The editor collaborator and `getRootSelection` (src/main.ts 247–266) -/

/-- An Obsidian `EditorPosition`: `{line, ch}`. -/
structure EditorPosition where
  line : Int
  ch : Int
deriving DecidableEq

/-- The abstract editor surface consumed by the plugin: current selection,
the `from`/`to` cursors, the plain cursor, word-range lookup, line access
and range extraction. -/
structure EditorState where
  selection : String
  cursorFrom : EditorPosition
  cursorTo : EditorPosition
  cursor : EditorPosition
  wordAt : EditorPosition → Option (EditorPosition × EditorPosition)
  getLine : Int → String
  getRange : EditorPosition → EditorPosition → String

/-- The record returned by `getRootSelection`: the target word, its span
(fields `from`/`to` in the source, renamed because `from` is a Lean
keyword) and the enclosing sentence. -/
structure WordContext where
  word : String
  fromPos : EditorPosition
  toPos : EditorPosition
  sentence : String
deriving DecidableEq

/-- `getSentenceUnderCursor(editor, from, to)`: reads the line at
`from.line` and extracts the sentence around columns `from.ch … to.ch`. -/
def getSentenceUnderCursor (ed : EditorState) (f t : EditorPosition) : String :=
  String.mk (sentenceFromLine (ed.getLine f.line).data f.ch t.ch)

/-- `getRootSelection(editor)`: a non-empty selection wins; otherwise the
word under the cursor; otherwise the empty context
`{word: "", from: {line:0,ch:0}, to: {line:0,ch:0}, sentence: ""}`. -/
def getRootSelection (ed : EditorState) : WordContext :=
  if ed.selection ≠ "" then
    { word := ed.selection, fromPos := ed.cursorFrom, toPos := ed.cursorTo,
      sentence := getSentenceUnderCursor ed ed.cursorFrom ed.cursorTo }
  else
    match ed.wordAt ed.cursor with
    | none => { word := "", fromPos := ⟨0, 0⟩, toPos := ⟨0, 0⟩, sentence := "" }
    | some (sFrom, sTo) =>
      { word := ed.getRange sFrom sTo, fromPos := sFrom, toPos := sTo,
        sentence := getSentenceUnderCursor ed sFrom sTo }

/-! ## `createCommandModal` (src/main.ts 268–282) -/

/-- What the command-driven flow does after processing: show a transient
notice, or open the searchable picker over the results (whose chosen word
is written back over the span `[f, t]`). -/
inductive ModalOutcome where
  | notice (msg : String)
  | opened (results : List String) (f t : EditorPosition)
deriving DecidableEq

/-- `createCommandModal(editor, processWord)` where `processWord` is one of
`processSynonyms`/`processAntonyms`/`processRhymes`, i.e.
`getCacheOrFetch` over that category's cache with the category's fetch
function.  Returns the outcome, the cache contents after the call and the
number of external fetches issued. -/
def createCommandModal (ed : EditorState) (cache : SWCMap)
    (fetchFn : String → List String) : ModalOutcome × SWCMap × Nat :=
  let ctx := getRootSelection ed
  let r := getCacheOrFetch cache ctx.word fetchFn
  if r.1.length = 0 then
    (.notice "Oops — No results found.", r.2.1, r.2.2)
  else
    (.opened r.1 ctx.fromPos ctx.toPos, r.2.1, r.2.2)

/-! ## The `wordy-asyn` command (src/main.ts 153–179) -/

/-- Outcome of the alliterative-synonyms command: a notice, or the picker
over the fetched results (whose chosen word replaces the selection). -/
inductive AsynOutcome where
  | notice (msg : String)
  | opened (results : List String)
deriving DecidableEq

/-- The `wordy-asyn` editor callback:
`const [priorWord, rootWord] = editor.getSelection().split(" ")` (missing
destructuring targets are JS `undefined`, modelled as `none`), guarded by
`rootWord != ""` (loose inequality: `undefined != ""` is true).  The fetch
function stands for `datamuseApi.alliterativeSynonyms(priorWord, rootWord)`;
the returned `Nat` counts its invocations. -/
def asynCommand (selection : String)
    (fetchFn : Option String → Option String → List String) :
    AsynOutcome × Nat :=
  let parts := (jsSplitChar ' ' selection.data).map String.mk
  let priorWord := parts[0]?
  let rootWord := parts[1]?
  if rootWord ≠ some "" then
    let res := fetchFn priorWord rootWord
    if res.length = 0 then (.notice "Oops — No rhymes found.", 1)
    else (.opened res, 1)
  else (.notice "Oops — Select a word first.", 0)

/-! ## `createMenuForWords` (src/main.ts 290–322) -/

/-- A click action attached to a menu item: replace the captured span with
a word, or open the searchable picker over the full result list. -/
inductive MenuAction where
  | replaceRange (w : String) (f t : EditorPosition)
  | openModal (words : List String)
deriving DecidableEq

/-- A rendered menu entry: an item with a title and an optional click
action, or a separator. -/
inductive MenuEntry where
  | item (title : String) (onClick : Option MenuAction)
  | separator
deriving DecidableEq

/-- `createMenuForWords(menu, words, editor, from, to)` with
`maxResults = this.settings.editorMenuMaxResults`: the list of entries
added to the menu, in order. -/
def createMenuForWords (maxResults : Nat) (words : List String)
    (f t : EditorPosition) : List MenuEntry :=
  (if words.length = 0 then [MenuEntry.item "No results found." none] else []) ++
  (words.take maxResults).map
    (fun w => MenuEntry.item w (some (MenuAction.replaceRange w f t))) ++
  (if words.length > maxResults then
    [MenuEntry.separator,
     MenuEntry.item ("More... (" ++ toString (words.length - maxResults) ++ ")")
       (some (MenuAction.openModal words))]
   else [])

/-- The click actions reachable from a rendered menu. -/
def menuClickActions (m : List MenuEntry) : List MenuAction :=
  m.filterMap fun e =>
    match e with
    | .item _ c => c
    | .separator => none

/-! # Helper lemmas -/

theorem swcGet_swcSet (m : SWCMap) (w : String) (r : List String) :
    swcGet (swcSet m [w] r) [w] = r := by
  simp [swcGet, swcSet, List.find?]

/-! # Claims -/

/-- C1: the claim says that after the user-facing "clear cache" action,
`get` for a previously cached word returns an empty sequence in every
category.  The code instead re-assigns the module-level `EMPTY_CACHE`
object — the very object `caches` already pointed at, whose
`SimpleWordCache` instances have been mutated in place — so previously
cached entries survive the click: starting from the fresh plugin state,
caching `"happy" ↦ ["glad"]` in the synonym cache and then clicking
"Clear cache" still yields `["glad"]`, not `[]`. -/
theorem c1_clear_cache_keeps_entries :
    cacheGetP (clearCacheClick
      (cacheSetP initialPluginState .syn ["happy"] ["glad"])) .syn ["happy"]
      = ["glad"] ∧
    cacheGetP (clearCacheClick
      (cacheSetP initialPluginState .syn ["happy"] ["glad"])) .syn ["happy"]
      ≠ [] := by
  constructor
  · decide
  · decide

/-- C2: for every cache state, word and fetch function, if the first
`getCacheOrFetch` call returns a non-empty result then a second call with
the same word returns that same list, issues no fetch, and the two calls
together issue at most one fetch; and on a cache miss the fetched result is
stored via `set` regardless of whether it is empty. -/
theorem c2_cache_or_fetch_idempotent (cache : SWCMap) (word : String)
    (fetchFn : String → List String) :
    ((getCacheOrFetch cache word fetchFn).1 ≠ [] →
      (getCacheOrFetch (getCacheOrFetch cache word fetchFn).2.1 word fetchFn).1
          = (getCacheOrFetch cache word fetchFn).1 ∧
      (getCacheOrFetch (getCacheOrFetch cache word fetchFn).2.1 word fetchFn).2.2
          = 0 ∧
      (getCacheOrFetch cache word fetchFn).2.2 +
        (getCacheOrFetch (getCacheOrFetch cache word fetchFn).2.1 word fetchFn).2.2
          ≤ 1) ∧
    (swcGet cache [word] = [] →
      (getCacheOrFetch cache word fetchFn).2.1
        = swcSet cache [word] (fetchFn word)) := by
  by_cases h : (swcGet cache [word]).length > 0
  · have e1 : getCacheOrFetch cache word fetchFn = (swcGet cache [word], cache, 0) := by
      simp only [getCacheOrFetch]
      rw [if_pos h]
    constructor
    · intro _
      rw [e1, e1]
      exact ⟨rfl, rfl, by simp⟩
    · intro hmiss
      rw [hmiss] at h
      simp at h
  · have hmiss : swcGet cache [word] = [] :=
      List.length_eq_zero.mp (by omega)
    have e1 : getCacheOrFetch cache word fetchFn
        = (fetchFn word, swcSet cache [word] (fetchFn word), 1) := by
      simp only [getCacheOrFetch]
      rw [if_neg h]
    constructor
    · intro hne
      rw [e1] at hne ⊢
      have hget : swcGet (swcSet cache [word] (fetchFn word)) [word]
          = fetchFn word := swcGet_swcSet cache word (fetchFn word)
      have hpos : (swcGet (swcSet cache [word] (fetchFn word)) [word]).length > 0 := by
        rw [hget]
        exact List.length_pos.mpr hne
      have e2 : getCacheOrFetch (swcSet cache [word] (fetchFn word)) word fetchFn
          = (swcGet (swcSet cache [word] (fetchFn word)) [word],
             swcSet cache [word] (fetchFn word), 0) := by
        simp only [getCacheOrFetch]
        rw [if_pos hpos]
      rw [e2]
      exact ⟨hget, rfl, by simp⟩
    · intro _
      rw [e1]

/-- Witness for C2 at a concrete input: empty cache, word `"w"`, fetch
returning `["a"]`. -/
theorem c2_cache_or_fetch_idempotent_witness :
    (getCacheOrFetch (getCacheOrFetch [] "w" (fun _ => ["a"])).2.1 "w"
        (fun _ => ["a"])).1 = (getCacheOrFetch [] "w" (fun _ => ["a"])).1 ∧
    (getCacheOrFetch [] "w" (fun _ => ["a"])).2.1
        = swcSet [] ["w"] ((fun _ => ["a"]) "w") := by
  exact ⟨((c2_cache_or_fetch_idempotent [] "w" (fun _ => ["a"])).1 (by decide)).1,
    (c2_cache_or_fetch_idempotent [] "w" (fun _ => ["a"])).2 (by decide)⟩

/-- A concrete editor state in which the selection is empty and the
cursor's word-boundary lookup returns none. -/
def edNoWord : EditorState :=
  { selection := "", cursorFrom := ⟨0, 0⟩, cursorTo := ⟨0, 0⟩, cursor := ⟨0, 0⟩,
    wordAt := fun _ => none, getLine := fun _ => "", getRange := fun _ _ => "" }

/-- C3, counterexample: with an empty selection and no word at the cursor,
`getRootSelection` does return the empty context, but the coordinator does
NOT treat it as "no target": it passes `""` to the processor, and on a cold
cache one external fetch is issued — refuting "never invokes any fetch
against the lexical client". -/
theorem c3_counterexample_fetch_issued :
    getRootSelection edNoWord = ⟨"", ⟨0, 0⟩, ⟨0, 0⟩, ""⟩ ∧
    ¬ ((createCommandModal edNoWord [] (fun _ => [])).2.2 = 0) := by
  constructor
  · decide
  · decide

/-- C3, amended: whenever the selection is empty and the editor's
word-boundary lookup returns none, `getRootSelection` returns
`word = ""` with a zero-length span at line 0, column 0 and an empty
sentence; the coordinator then invokes the processor with the empty word —
issuing one fetch for `""` exactly when the cache misses on `""` — and if
the resulting list is empty it surfaces the "No results found." notice and
opens no picker. -/
theorem c3_no_word_amended (ed : EditorState) (cache : SWCMap)
    (fetchFn : String → List String)
    (hsel : ed.selection = "") (hword : ed.wordAt ed.cursor = none) :
    getRootSelection ed = ⟨"", ⟨0, 0⟩, ⟨0, 0⟩, ""⟩ ∧
    (createCommandModal ed cache fetchFn).2.2
      = (if (swcGet cache [""]).length > 0 then 0 else 1) ∧
    ((getCacheOrFetch cache "" fetchFn).1 = [] →
      (createCommandModal ed cache fetchFn).1
        = .notice "Oops — No results found.") := by
  have hctx : getRootSelection ed = ⟨"", ⟨0, 0⟩, ⟨0, 0⟩, ""⟩ := by
    rw [getRootSelection, if_neg (by simp [hsel]), hword]
  refine ⟨hctx, ?_, ?_⟩
  · rw [createCommandModal, hctx]
    by_cases h : (swcGet cache [""]).length > 0
    · simp only [getCacheOrFetch, if_pos h]
      split <;> simp [h]
    · simp only [getCacheOrFetch, if_neg h]
      split <;> simp [h]
  · intro hempty
    simp [createCommandModal, hctx, hempty]

/-- Witness for C3's amended theorem at the concrete no-word editor state,
cold cache and a fetch returning no results. -/
theorem c3_no_word_amended_witness :
    getRootSelection edNoWord = ⟨"", ⟨0, 0⟩, ⟨0, 0⟩, ""⟩ ∧
    (createCommandModal edNoWord [] (fun _ => [])).2.2
      = (if (swcGet [] [""]).length > 0 then 0 else 1) ∧
    ((getCacheOrFetch [] "" (fun _ => ([] : List String))).1 = [] →
      (createCommandModal edNoWord [] (fun _ => [])).1
        = .notice "Oops — No results found.") :=
  c3_no_word_amended edNoWord [] (fun _ => []) rfl rfl

/-- C4: the claim says a space-free selection such as `"brave"` yields
`rootWord = ""` and the "select a word first" notice with no fetch.  In the
code, `"brave".split(" ")` destructures to `rootWord = undefined`, and the
loose guard `rootWord != ""` is TRUE for `undefined`, so the fetch IS
issued (with an undefined root word) and — the result list being empty —
the user sees "Oops — No rhymes found." instead.  The two-word half of the
claim does hold: `"big brave"` splits into `priorWord="big"`,
`rootWord="brave"` and one fetch is made. -/
theorem c4_asyn_single_word_fetches :
    asynCommand "brave" (fun _ _ => []) = (.notice "Oops — No rhymes found.", 1) ∧
    (asynCommand "brave" (fun _ _ => [])).2 ≠ 0 ∧
    asynCommand "big brave"
        (fun p r => if p = some "big" && r = some "brave" then ["bold"] else [])
      = (.opened ["bold"], 1) := by
  refine ⟨by decide, by decide, by decide⟩

/-- JS `String.prototype.toLowerCase` (its effect on the ASCII inputs used
here): each character lowercased. -/
def jsToLower (s : String) : String :=
  String.mk (s.data.map Char.toLower)

/-- C5, counterexample: the claim says the cache keys entries by the
LOWERCASE form of the single lookup word, so storing under `["Hi"]` and
reading back via the lowercased first element would retrieve the stored
list.  The code performs no lowercasing: the read misses. -/
theorem c5_counterexample_no_lowercasing :
    jsToLower "Hi" = "hi" ∧
    ¬ (swcGet (swcSet [] ["Hi"] ["x"]) [jsToLower "Hi"] = ["x"]) := by
  constructor
  · decide
  · decide

/-- C5, amended: the cache keys entries by the verbatim first element of
the key list (no lowercasing): `set` followed by `get` with the same key
list retrieves the stored list, in the stored (service-returned) order. -/
theorem c5_verbatim_key_roundtrip (m : SWCMap) (w : String) (r : List String) :
    swcGet (swcSet m [w] r) [w] = r :=
  swcGet_swcSet m w r

/-- C9: with `editorMenuMaxResults = 15` and a 20-element result list the
rendered menu is exactly the first 15 results in order as direct entries
followed by the single overflow entry "More... (5)" that opens the full
searchable picker (the code also inserts a separator before it); and
whenever the result count does not exceed the maximum (and is non-zero),
the menu consists of the direct entries only — no overflow entry. -/
theorem c9_menu_truncation (words : List String) (maxResults : Nat)
    (f t : EditorPosition) :
    (words.length = 20 →
      createMenuForWords 15 words f t =
        (words.take 15).map
          (fun w => MenuEntry.item w (some (MenuAction.replaceRange w f t))) ++
        [MenuEntry.separator,
         MenuEntry.item "More... (5)" (some (MenuAction.openModal words))]) ∧
    (words.length ≤ maxResults → words.length ≠ 0 →
      createMenuForWords maxResults words f t =
        words.map (fun w => MenuEntry.item w (some (MenuAction.replaceRange w f t)))) := by
  constructor
  · intro h20
    have hmore : ("More... (" ++ toString (words.length - 15) ++ ")") = "More... (5)" := by
      rw [h20]
      decide
    rw [createMenuForWords, hmore, if_neg (by omega), if_pos (by omega)]
    simp
  · intro hle hne
    rw [createMenuForWords, if_neg hne, if_neg (by omega),
      List.take_of_length_le hle]
    simp

/-- A concrete 20-element result list for the C9 witness. -/
def wTwenty : List String := (List.range 20).map (fun n => toString n)

/-- Witness for C9: the menu rendered for a concrete 20-element list at
`maxResults = 15`, and for a concrete 3-element list at `maxResults = 15`. -/
theorem c9_menu_truncation_witness :
    (createMenuForWords 15 wTwenty ⟨0, 0⟩ ⟨0, 0⟩ =
      (wTwenty.take 15).map
        (fun w => MenuEntry.item w (some (MenuAction.replaceRange w ⟨0, 0⟩ ⟨0, 0⟩))) ++
      [MenuEntry.separator,
       MenuEntry.item "More... (5)" (some (MenuAction.openModal wTwenty))]) ∧
    (createMenuForWords 15 ["a", "b", "c"] ⟨0, 0⟩ ⟨0, 0⟩ =
      ["a", "b", "c"].map
        (fun w => MenuEntry.item w (some (MenuAction.replaceRange w ⟨0, 0⟩ ⟨0, 0⟩)))) :=
  ⟨(c9_menu_truncation wTwenty 15 ⟨0, 0⟩ ⟨0, 0⟩).1 (by decide),
   (c9_menu_truncation ["a", "b", "c"] 15 ⟨0, 0⟩ ⟨0, 0⟩).2 (by decide) (by decide)⟩

/-- C10: for an empty result list the rendered menu is exactly one
informational item titled "No results found." with no click action, so no
click action at all (in particular no replace-range) is reachable from the
menu and the document cannot be modified through it. -/
theorem c10_empty_results_menu (maxResults : Nat) (f t : EditorPosition) :
    createMenuForWords maxResults [] f t
      = [MenuEntry.item "No results found." none] ∧
    menuClickActions (createMenuForWords maxResults [] f t) = [] := by
  have h : createMenuForWords maxResults [] f t
      = [MenuEntry.item "No results found." none] := by
    rw [createMenuForWords]
    simp
  exact ⟨h, by rw [h]; rfl⟩

/-- C6: for the line "The quick brown fox jumps. Over the lazy dog." with
the cursor word span on "jumps" (columns 20–25), the extracted sentence is
exactly "The quick brown fox jumps": the forward scan halts at the period
and the strip removes surrounding punctuation/whitespace. -/
theorem c6_concrete_sentence :
    sentenceFromLine "The quick brown fox jumps. Over the lazy dog.".data 20 25
      = "The quick brown fox jumps".data := by
  decide

/-- Every index inspected by the backward scan is within bounds. -/
theorem fwbBack_trace_in_bounds (text : List Char) :
    ∀ (n count : Nat), ∀ j ∈ (fwbBack text count n).2,
      0 ≤ j ∧ j < (text.length : Int) := by
  intro n
  induction n with
  | zero =>
    intro count j hj
    simp [fwbBack] at hj
  | succ n ih =>
    intro count j hj
    rw [fwbBack] at hj
    by_cases hg : count < 5 ∧ n < text.length
    · rw [if_pos hg] at hj
      by_cases he : isEnding (text.getD n ' ')
      · rw [if_pos he] at hj
        simp at hj
        subst hj
        constructor
        · omega
        · exact_mod_cast hg.2
      · rw [if_neg he] at hj
        simp only [List.mem_cons] at hj
        rcases hj with hj | hj
        · subst hj
          constructor
          · omega
          · exact_mod_cast hg.2
        · exact ih _ j hj
    · rw [if_neg hg] at hj
      simp at hj

/-- Every index inspected by the forward scan (invoked with
`n ≤ text.length`, as the wrapper does) is within bounds. -/
theorem fwbFwd_trace_in_bounds (text : List Char) :
    ∀ (n count : Nat), n ≤ text.length → ∀ j ∈ (fwbFwd text count n).2,
      0 ≤ j ∧ j < (text.length : Int) := by
  intro n
  induction n with
  | zero =>
    intro count _ j hj
    simp [fwbFwd] at hj
  | succ n ih =>
    intro count hn j hj
    rw [fwbFwd] at hj
    by_cases hg : count < 5
    · rw [if_pos hg] at hj
      by_cases he : isEnding (text.getD ((text.length : Int) - (n + 1)).toNat ' ')
      · rw [if_pos he] at hj
        simp at hj
        subst hj
        constructor <;> omega
      · rw [if_neg he] at hj
        simp only [List.mem_cons] at hj
        rcases hj with hj | hj
        · subst hj
          constructor <;> omega
        · exact ih _ (by omega) j hj
    · rw [if_neg hg] at hj
      simp at hj

/-- C7: for every line and every pair of cursor columns (including columns
before the start or past the end of the line), every index at which the
boundary scan of sentence extraction inspects the line satisfies
`0 ≤ index < line.length`. -/
theorem c7_scan_in_bounds (line : List Char) (fromCh toCh : Int) (j : Int)
    (hj : j ∈ inspectedIndices line fromCh toCh) :
    0 ≤ j ∧ j < (line.length : Int) := by
  rw [inspectedIndices] at hj
  rcases List.mem_append.mp hj with hj | hj
  · rw [findWordBoundaries, if_pos rfl] at hj
    by_cases hs : fromCh < 0
    · rw [if_pos hs] at hj
      simp at hj
    · rw [if_neg hs] at hj
      exact fwbBack_trace_in_bounds line _ 0 j hj
  · rw [findWordBoundaries, if_neg (by decide)] at hj
    by_cases hs : toCh < 0 ∨ (line.length : Int) < toCh
    · rw [if_pos hs] at hj
      simp at hj
    · rw [if_neg hs] at hj
      exact fwbFwd_trace_in_bounds line _ 0 (by omega) j hj

/-- Witness for C7: on the two-character line "ab" with the span `[0, 1]`,
the scans inspect indices `[0, 1]`, and index `0` is in bounds. -/
theorem c7_scan_in_bounds_witness :
    (0 : Int) ∈ inspectedIndices ['a', 'b'] 0 1 ∧
    (0 : Int) ≥ 0 ∧ (0 : Int) < (2 : Int) := by
  refine ⟨by decide, le_refl 0, ?_⟩
  have h := c7_scan_in_bounds ['a', 'b'] 0 1 0 (by decide)
  exact_mod_cast h.2

/-! ## List algebra used for the idempotence of sentence extraction -/

theorem segN_self (L : List Char) (a : Nat) : segN L a a = [] := by
  rw [segN, List.drop_eq_nil_iff, List.length_take]
  omega

theorem segN_zero (L : List Char) (b : Nat) : segN L 0 b = L.take b := by
  rw [segN, List.drop_zero]

theorem segN_full (L : List Char) : segN L 0 L.length = L := by
  rw [segN_zero, List.take_of_length_le (le_refl _)]

theorem segN_length (L : List Char) (a b : Nat) (hab : a ≤ b) (hb : b ≤ L.length) :
    (segN L a b).length = b - a := by
  rw [segN, List.length_drop, List.length_take]
  omega

theorem segN_append (L : List Char) (a b c : Nat) (hab : a ≤ b) (hbc : b ≤ c)
    (hc : c ≤ L.length) : segN L a c = segN L a b ++ segN L b c := by
  have h1 : List.take b (List.take c L) = List.take b L := by
    rw [List.take_take]
    congr 1
    omega
  have h2 : List.take c L = List.take b L ++ List.drop b (List.take c L) := by
    conv_lhs => rw [← List.take_append_drop b (List.take c L)]
    rw [h1]
  have hlen : (List.take b L).length = b := by
    rw [List.length_take]
    omega
  rw [segN, h2, List.drop_append_eq_append_drop, hlen]
  have hz : a - b = 0 := by omega
  rw [hz]
  rfl

theorem segN_singleton (L : List Char) (a : Nat) (h : a < L.length) :
    segN L a (a + 1) = [L.getD a ' '] := by
  rw [segN, List.take_succ, List.getElem?_eq_getElem h,
    List.drop_append_eq_append_drop]
  have h1 : List.drop a (List.take a L) = [] := segN_self L a
  have hlen : (List.take a L).length = a := by
    rw [List.length_take]
    omega
  rw [h1, hlen, Nat.sub_self, List.drop_zero, List.getD_eq_getElem L ' ' h]
  rfl

theorem jsSubstring_eq_segN (L : List Char) (a b : Int) (h0 : 0 ≤ a) (hab : a ≤ b)
    (hb : b ≤ (L.length : Int)) : jsSubstring L a b = segN L a.toNat b.toNat := by
  simp only [jsSubstring]
  congr 1 <;> omega

theorem jsSubstring_zero_length (L : List Char) :
    jsSubstring L 0 (L.length : Int) = L := by
  rw [jsSubstring_eq_segN L 0 (L.length : Int) (le_refl 0) (by omega) (le_refl _)]
  simpa using segN_full L

theorem dropRightWhile_append (p : Char → Bool) (xs ys : List Char) :
    dropRightWhile p (xs ++ ys) =
      if (dropRightWhile p ys).isEmpty then dropRightWhile p xs
      else xs ++ dropRightWhile p ys := by
  rw [dropRightWhile, List.reverse_append, List.dropWhile_append]
  have hiff : (List.dropWhile p ys.reverse).isEmpty = (dropRightWhile p ys).isEmpty := by
    rw [dropRightWhile]
    cases h : List.dropWhile p ys.reverse <;> simp [h]
  by_cases h : (dropRightWhile p ys).isEmpty
  · rw [if_pos (by rw [hiff]; exact h), if_pos h, dropRightWhile]
  · rw [if_neg (by rw [hiff]; exact h), if_neg h, List.reverse_append,
      List.reverse_reverse, dropRightWhile]

theorem dropRightWhile_singleton (p : Char → Bool) (c : Char) :
    dropRightWhile p [c] = if p c then [] else [c] := by
  rw [dropRightWhile]
  by_cases h : p c
  · simp [h, List.dropWhile]
  · simp [h, List.dropWhile]

theorem dropRightWhile_idempotent (p : Char → Bool) (l : List Char) :
    dropRightWhile p (dropRightWhile p l) = dropRightWhile p l := by
  rw [dropRightWhile, dropRightWhile, List.reverse_reverse,
    List.dropWhile_idempotent]

theorem dropRightWhile_cons_append (p : Char → Bool) (c : Char) (hc : p c = false)
    (l : List Char) : dropRightWhile p ([c] ++ dropRightWhile p l)
      = [c] ++ dropRightWhile p l := by
  rw [dropRightWhile_append, dropRightWhile_idempotent]
  by_cases h : (dropRightWhile p l).isEmpty
  · rw [if_pos h, dropRightWhile_singleton, if_neg (by simp [hc])]
    cases hl : dropRightWhile p l
    · simp
    · rw [hl] at h
      simp at h
  · rw [if_neg h]

theorem dropWhile_mem_of_mem {p : Char → Bool} {l : List Char} {x : Char}
    (h : x ∈ l.dropWhile p) : x ∈ l := by
  induction l with
  | nil => simp [List.dropWhile] at h
  | cons a as ih =>
    rw [List.dropWhile_cons] at h
    by_cases ha : p a
    · rw [if_pos ha] at h
      exact List.mem_cons_of_mem a (ih h)
    · rw [if_neg ha] at h
      exact h

/-! ## Characterizations of the two boundary scans -/

/-- When the count has already reached 5 the backward scan stops at once
and returns `index + 1`. -/
theorem fwbBack_count_ge (L : List Char) (count : Nat) (h : 5 ≤ count) (n : Nat) :
    fwbBack L count n = ((n : Int), []) := by
  cases n with
  | zero => rfl
  | succ n =>
    rw [fwbBack, if_neg (fun hh => absurd hh.1 (by omega))]
    push_cast
    rfl

/-- When the count has already reached 5 the forward scan stops at once and
returns its index. -/
theorem fwbFwd_count_ge (L : List Char) (count : Nat) (h : 5 ≤ count) (n : Nat) :
    fwbFwd L count n = ((L.length : Int) - n, []) := by
  cases n with
  | zero =>
    rw [fwbFwd]
    push_cast
    norm_num
  | succ n =>
    rw [fwbFwd, if_neg (by omega)]
    push_cast
    rfl


theorem ite_cond_false {α : Sort u} (a b : α) : (if false = true then a else b) = b := rfl

theorem ite_cond_true {α : Sort u} (a b : α) : (if true = true then a else b) = a := rfl

/-- Characterization of the backward scan: starting at index `m` (inside
the line) with a count below 5, the computed boundary `s` lies in `[0, m]`,
and after removing the leading strip run, the segment `[s, m + 1)` of the
line contains no sentence ending and its whitespace count together with the
starting count stays at most 4. -/
theorem fwbBack_spec (L : List Char) :
    ∀ (m count : Nat), count < 5 → m < L.length →
      0 ≤ (fwbBack L count (m + 1)).1 ∧
      (fwbBack L count (m + 1)).1 ≤ (m : Int) ∧
      (∀ x ∈ (segN L ((fwbBack L count (m + 1)).1).toNat (m + 1)).dropWhile isStrip,
        isEnding x = false) ∧
      count + ((segN L ((fwbBack L count (m + 1)).1).toNat (m + 1)).dropWhile
        isStrip).countP isJsSpace ≤ 4 := by
  intro m
  induction m with
  | zero =>
    intro count hc hm
    rw [fwbBack, if_pos ⟨hc, hm⟩]
    simp only [← List.getD_eq_getElem?_getD]
    have hseg0 : segN L 0 (0 + 1) = [L.getD 0 ' '] := segN_singleton L 0 hm
    cases he : isEnding (L.getD 0 ' ') with
    | true =>
      rw [ite_cond_true]
      dsimp only
      rw [Int.toNat_natCast, hseg0,
        List.dropWhile_cons_of_pos (isStrip_of_isEnding he)]
      refine ⟨by omega, by omega, ?_, ?_⟩
      · intro x hx
        simp at hx
      · simp only [List.dropWhile_nil, List.countP_nil]
        omega
    | false =>
      rw [ite_cond_false]
      dsimp only
      rw [show fwbBack L (if isJsSpace (L.getD 0 ' ') = true then count + 1 else count) 0
          = ((0 : Int), ([] : List Int)) from rfl]
      dsimp only
      rw [Int.toNat_zero, hseg0]
      cases hws : isJsSpace (L.getD 0 ' ') with
      | true =>
        rw [List.dropWhile_cons_of_pos (isStrip_of_isJsSpace hws)]
        refine ⟨by omega, by omega, ?_, ?_⟩
        · intro x hx
          simp at hx
        · simp only [List.dropWhile_nil, List.countP_nil]
          omega
      | false =>
        have hstrip : isStrip (L.getD 0 ' ') = false := by
          rw [isStrip, he, hws]
          rfl
        rw [List.dropWhile_cons_of_neg (by rw [hstrip]; decide)]
        refine ⟨by omega, by omega, ?_, ?_⟩
        · intro x hx
          rcases List.mem_singleton.mp hx with rfl
          exact he
        · rw [List.countP_cons, List.countP_nil, hws, ite_cond_false]
          omega
  | succ k ih =>
    intro count hc hm
    rw [fwbBack, if_pos ⟨hc, hm⟩]
    simp only [← List.getD_eq_getElem?_getD]
    have hsing : segN L (k + 1) (k + 1 + 1) = [L.getD (k + 1) ' '] :=
      segN_singleton L (k + 1) hm
    cases he : isEnding (L.getD (k + 1) ' ') with
    | true =>
      rw [ite_cond_true]
      dsimp only
      rw [Int.toNat_natCast, hsing,
        List.dropWhile_cons_of_pos (isStrip_of_isEnding he)]
      refine ⟨by omega, by omega, ?_, ?_⟩
      · intro x hx
        simp at hx
      · simp only [List.dropWhile_nil, List.countP_nil]
        omega
    | false =>
      rw [ite_cond_false]
      dsimp only
      cases hws : isJsSpace (L.getD (k + 1) ' ') with
      | false =>
        rw [ite_cond_false]
        have hstrip : isStrip (L.getD (k + 1) ' ') = false := by
          rw [isStrip, he, hws]
          rfl
        obtain ⟨ih0, ih1, ih2, ih3⟩ := ih count hc (by omega)
        have hsk : ((fwbBack L count (k + 1)).1).toNat ≤ k + 1 := by omega
        have hsplit : segN L ((fwbBack L count (k + 1)).1).toNat (k + 1 + 1)
            = segN L ((fwbBack L count (k + 1)).1).toNat (k + 1)
              ++ segN L (k + 1) (k + 1 + 1) :=
          segN_append L _ (k + 1) (k + 1 + 1) hsk (by omega) (by omega)
        rw [hsplit, hsing, List.dropWhile_append]
        by_cases hPe : ((segN L ((fwbBack L count (k + 1)).1).toNat
            (k + 1)).dropWhile isStrip).isEmpty
        · rw [if_pos hPe, List.dropWhile_cons_of_neg (by rw [hstrip]; decide)]
          refine ⟨ih0, by omega, ?_, ?_⟩
          · intro x hx
            rcases List.mem_singleton.mp hx with rfl
            exact he
          · rw [List.countP_cons, List.countP_nil, hws, ite_cond_false]
            omega
        · rw [if_neg hPe]
          refine ⟨ih0, by omega, ?_, ?_⟩
          · intro x hx
            rcases List.mem_append.mp hx with hx | hx
            · exact ih2 x hx
            · rcases List.mem_singleton.mp hx with rfl
              exact he
          · rw [List.countP_append, List.countP_cons, List.countP_nil, hws,
              ite_cond_false]
            omega
      | true =>
        rw [ite_cond_true]
        have hstrip : isStrip (L.getD (k + 1) ' ') = true := isStrip_of_isJsSpace hws
        by_cases hcc : count + 1 < 5
        · obtain ⟨ih0, ih1, ih2, ih3⟩ := ih (count + 1) hcc (by omega)
          have hsk : ((fwbBack L (count + 1) (k + 1)).1).toNat ≤ k + 1 := by omega
          have hsplit : segN L ((fwbBack L (count + 1) (k + 1)).1).toNat (k + 1 + 1)
              = segN L ((fwbBack L (count + 1) (k + 1)).1).toNat (k + 1)
                ++ segN L (k + 1) (k + 1 + 1) :=
            segN_append L _ (k + 1) (k + 1 + 1) hsk (by omega) (by omega)
          rw [hsplit, hsing, List.dropWhile_append]
          by_cases hPe : ((segN L ((fwbBack L (count + 1) (k + 1)).1).toNat
              (k + 1)).dropWhile isStrip).isEmpty
          · rw [if_pos hPe, List.dropWhile_cons_of_pos hstrip]
            refine ⟨ih0, by omega, ?_, ?_⟩
            · intro x hx
              simp at hx
            · simp only [List.dropWhile_nil, List.countP_nil]
              omega
          · rw [if_neg hPe]
            refine ⟨ih0, by omega, ?_, ?_⟩
            · intro x hx
              rcases List.mem_append.mp hx with hx | hx
              · exact ih2 x hx
              · rcases List.mem_singleton.mp hx with rfl
                exact he
            · rw [List.countP_append, List.countP_cons, List.countP_nil, hws,
                ite_cond_true]
              omega
        · rw [fwbBack_count_ge L (count + 1) (by omega) (k + 1)]
          dsimp only
          rw [Int.toNat_natCast, hsing, List.dropWhile_cons_of_pos hstrip]
          refine ⟨by omega, by omega, ?_, ?_⟩
          · intro x hx
            simp at hx
          · simp only [List.dropWhile_nil, List.countP_nil]
            omega

/-- Characterization of the forward scan: starting at index
`L.length - n` (with `n ≤ L.length`) and a count below 5, the computed
boundary `e` lies in `[L.length - n, L.length]`, and after removing the
trailing strip run, the segment `[L.length - n, e)` of the line contains no
sentence ending and its whitespace count together with the starting count
stays at most 4. -/
theorem fwbFwd_spec (L : List Char) :
    ∀ (n count : Nat), count < 5 → n ≤ L.length →
      (L.length : Int) - n ≤ (fwbFwd L count n).1 ∧
      (fwbFwd L count n).1 ≤ (L.length : Int) ∧
      (∀ x ∈ dropRightWhile isStrip
          (segN L (L.length - n) ((fwbFwd L count n).1).toNat),
        isEnding x = false) ∧
      count + (dropRightWhile isStrip
        (segN L (L.length - n) ((fwbFwd L count n).1).toNat)).countP isJsSpace
        ≤ 4 := by
  intro n
  induction n with
  | zero =>
    intro count hc hn
    rw [fwbFwd]
    rw [Int.toNat_natCast, Nat.sub_zero, segN_self]
    refine ⟨by omega, by omega, ?_, ?_⟩
    · intro x hx
      rw [show dropRightWhile isStrip ([] : List Char) = [] from rfl] at hx
      simp at hx
    · rw [show dropRightWhile isStrip ([] : List Char) = [] from rfl,
        List.countP_nil]
      omega
  | succ k ih =>
    intro count hc hn
    rw [fwbFwd, if_pos hc]
    simp only [← List.getD_eq_getElem?_getD]
    have hidx : ((L.length : Int) - ((k : Int) + 1)).toNat = L.length - (k + 1) := by
      omega
    rw [hidx]
    have hsing : segN L (L.length - (k + 1)) (L.length - (k + 1) + 1)
        = [L.getD (L.length - (k + 1)) ' '] :=
      segN_singleton L _ (by omega)
    have hstep : L.length - (k + 1) + 1 = L.length - k := by omega
    have hsing2 : segN L (L.length - (k + 1)) (L.length - k)
        = [L.getD (L.length - (k + 1)) ' '] := by
      rw [← hstep]
      exact hsing
    cases he : isEnding (L.getD (L.length - (k + 1)) ' ') with
    | true =>
      rw [ite_cond_true]
      dsimp only
      rw [hidx, segN_self]
      refine ⟨by omega, by omega, ?_, ?_⟩
      · intro x hx
        rw [show dropRightWhile isStrip ([] : List Char) = [] from rfl] at hx
        simp at hx
      · rw [show dropRightWhile isStrip ([] : List Char) = [] from rfl,
          List.countP_nil]
        omega
    | false =>
      rw [ite_cond_false]
      dsimp only
      cases hws : isJsSpace (L.getD (L.length - (k + 1)) ' ') with
      | false =>
        rw [ite_cond_false]
        have hstrip : isStrip (L.getD (L.length - (k + 1)) ' ') = false := by
          rw [isStrip, he, hws]
          rfl
        obtain ⟨ih0, ih1, ih2, ih3⟩ := ih count hc (by omega)
        have hsplit : segN L (L.length - (k + 1)) ((fwbFwd L count k).1).toNat
            = segN L (L.length - (k + 1)) (L.length - k)
              ++ segN L (L.length - k) ((fwbFwd L count k).1).toNat :=
          segN_append L _ _ _ (by omega) (by omega) (by omega)
        rw [hsplit, hsing2, dropRightWhile_append]
        by_cases hQe : (dropRightWhile isStrip
            (segN L (L.length - k) ((fwbFwd L count k).1).toNat)).isEmpty
        · rw [if_pos hQe, dropRightWhile_singleton, hstrip, ite_cond_false]
          refine ⟨by omega, by omega, ?_, ?_⟩
          · intro x hx
            rcases List.mem_singleton.mp hx with rfl
            exact he
          · rw [List.countP_cons, List.countP_nil, hws, ite_cond_false]
            omega
        · rw [if_neg hQe]
          refine ⟨by omega, by omega, ?_, ?_⟩
          · intro x hx
            rcases List.mem_append.mp hx with hx | hx
            · rcases List.mem_singleton.mp hx with rfl
              exact he
            · exact ih2 x hx
          · rw [List.countP_append, List.countP_cons, List.countP_nil, hws,
              ite_cond_false]
            omega
      | true =>
        rw [ite_cond_true]
        have hstrip : isStrip (L.getD (L.length - (k + 1)) ' ') = true :=
          isStrip_of_isJsSpace hws
        by_cases hcc : count + 1 < 5
        · obtain ⟨ih0, ih1, ih2, ih3⟩ := ih (count + 1) hcc (by omega)
          have hsplit : segN L (L.length - (k + 1)) ((fwbFwd L (count + 1) k).1).toNat
              = segN L (L.length - (k + 1)) (L.length - k)
                ++ segN L (L.length - k) ((fwbFwd L (count + 1) k).1).toNat :=
            segN_append L _ _ _ (by omega) (by omega) (by omega)
          rw [hsplit, hsing2, dropRightWhile_append]
          by_cases hQe : (dropRightWhile isStrip
              (segN L (L.length - k) ((fwbFwd L (count + 1) k).1).toNat)).isEmpty
          · rw [if_pos hQe, dropRightWhile_singleton, hstrip, ite_cond_true]
            refine ⟨by omega, by omega, ?_, ?_⟩
            · intro x hx
              simp at hx
            · rw [List.countP_nil]
              omega
          · rw [if_neg hQe]
            refine ⟨by omega, by omega, ?_, ?_⟩
            · intro x hx
              rcases List.mem_append.mp hx with hx | hx
              · rcases List.mem_singleton.mp hx with rfl
                exact he
              · exact ih2 x hx
            · rw [List.countP_append, List.countP_cons, List.countP_nil, hws,
                ite_cond_true]
              omega
        · rw [fwbFwd_count_ge L (count + 1) (by omega) k]
          dsimp only
          have he2 : ((L.length : Int) - (k : Int)).toNat = L.length - k := by
            omega
          rw [he2, hsing2, dropRightWhile_singleton, hstrip, ite_cond_true]
          refine ⟨by omega, by omega, ?_, ?_⟩
          · intro x hx
            simp at hx
          · rw [List.countP_nil]
            omega

/-- If the prefix `[0, n)` of the line contains no sentence ending and at
most `4 - count` whitespace characters, the backward scan runs all the way
down and returns 0. -/
theorem fwbBack_runs_to_zero (L : List Char) :
    ∀ (n count : Nat), n ≤ L.length →
      (∀ x ∈ segN L 0 n, isEnding x = false) →
      count + (segN L 0 n).countP isJsSpace ≤ 4 →
      (fwbBack L count n).1 = 0 := by
  intro n
  induction n with
  | zero =>
    intro count _ _ _
    rfl
  | succ k ih =>
    intro count hn hE hW
    have hsplit : segN L 0 (k + 1) = segN L 0 k ++ [L.getD k ' '] := by
      rw [segN_append L 0 k (k + 1) (by omega) (by omega) (by omega),
        segN_singleton L k (by omega)]
    rw [hsplit] at hE hW
    have hchar : isEnding (L.getD k ' ') = false := hE (L.getD k ' ') (by simp)
    rw [List.countP_append, List.countP_cons, List.countP_nil] at hW
    have hc : count < 5 := by omega
    rw [fwbBack, if_pos ⟨hc, (by omega : k < L.length)⟩]
    simp only [← List.getD_eq_getElem?_getD]
    rw [hchar, ite_cond_false]
    dsimp only
    have hE' : ∀ x ∈ segN L 0 k, isEnding x = false :=
      fun x hx => hE x (List.mem_append_left _ hx)
    cases hws : isJsSpace (L.getD k ' ') with
    | false =>
      rw [ite_cond_false]
      rw [hws, ite_cond_false] at hW
      exact ih count (by omega) hE' (by omega)
    | true =>
      rw [ite_cond_true]
      rw [hws, ite_cond_true] at hW
      exact ih (count + 1) (by omega) hE' (by omega)

/-- If the suffix `[L.length - n, L.length)` of the line contains no
sentence ending and at most `4 - count` whitespace characters, the forward
scan runs all the way up and returns `L.length`. -/
theorem fwbFwd_runs_to_length (L : List Char) :
    ∀ (n count : Nat), n ≤ L.length →
      (∀ x ∈ segN L (L.length - n) L.length, isEnding x = false) →
      count + (segN L (L.length - n) L.length).countP isJsSpace ≤ 4 →
      (fwbFwd L count n).1 = (L.length : Int) := by
  intro n
  induction n with
  | zero =>
    intro count _ _ _
    rfl
  | succ k ih =>
    intro count hn hE hW
    have hstep : L.length - (k + 1) + 1 = L.length - k := by omega
    have hsing2 : segN L (L.length - (k + 1)) (L.length - k)
        = [L.getD (L.length - (k + 1)) ' '] := by
      rw [← hstep]
      exact segN_singleton L _ (by omega)
    have hsplit : segN L (L.length - (k + 1)) L.length
        = [L.getD (L.length - (k + 1)) ' '] ++ segN L (L.length - k) L.length := by
      rw [segN_append L (L.length - (k + 1)) (L.length - k) L.length
        (by omega) (by omega) (by omega), hsing2]
    rw [hsplit] at hE hW
    have hchar : isEnding (L.getD (L.length - (k + 1)) ' ') = false :=
      hE (L.getD (L.length - (k + 1)) ' ') (by simp)
    rw [List.countP_append, List.countP_cons, List.countP_nil] at hW
    have hc : count < 5 := by omega
    rw [fwbFwd, if_pos hc]
    simp only [← List.getD_eq_getElem?_getD]
    have hidx : ((L.length : Int) - ((k : Int) + 1)).toNat = L.length - (k + 1) := by
      omega
    rw [hidx, hchar, ite_cond_false]
    dsimp only
    have hE' : ∀ x ∈ segN L (L.length - k) L.length, isEnding x = false :=
      fun x hx => hE x (List.mem_append_right _ hx)
    cases hws : isJsSpace (L.getD (L.length - (k + 1)) ' ') with
    | false =>
      rw [ite_cond_false]
      rw [hws, ite_cond_false] at hW
      exact ih count (by omega) hE' (by omega)
    | true =>
      rw [ite_cond_true]
      rw [hws, ite_cond_true] at hW
      exact ih (count + 1) (by omega) hE' (by omega)

/-- Dropping the leading strip run of `U1 ++ ((cf :: W1) ++ U2)` stops at
`cf` at the latest. -/
theorem dropWhile_append_decomp (U1 W1 U2 : List Char) (cf : Char)
    (hcf : isStrip cf = false) :
    (U1 ++ ((cf :: W1) ++ U2)).dropWhile isStrip
      = U1.dropWhile isStrip ++ ((cf :: W1) ++ U2) := by
  rw [List.dropWhile_append]
  by_cases hp : (U1.dropWhile isStrip).isEmpty
  · rw [if_pos hp, List.cons_append,
      List.dropWhile_cons_of_neg (by rw [hcf]; decide),
      List.isEmpty_iff.mp hp, List.nil_append]
  · rw [if_neg hp]

/-- Dropping the trailing strip run of `P ++ ((W2 ++ [cl]) ++ U2)` reaches
`cl` at the earliest, so it only trims inside `U2`. -/
theorem dropRightWhile_decomp (P W2 U2 : List Char) (cl : Char)
    (hcl : isStrip cl = false) :
    dropRightWhile isStrip (P ++ ((W2 ++ [cl]) ++ U2))
      = P ++ ((W2 ++ [cl]) ++ dropRightWhile isStrip U2) := by
  have h1 : P ++ ((W2 ++ [cl]) ++ U2) = (P ++ W2) ++ ([cl] ++ U2) := by
    simp [List.append_assoc]
  have h2 : P ++ ((W2 ++ [cl]) ++ dropRightWhile isStrip U2)
      = (P ++ W2) ++ ([cl] ++ dropRightWhile isStrip U2) := by
    simp [List.append_assoc]
  rw [h1, h2, dropRightWhile_append]
  have hinner : dropRightWhile isStrip ([cl] ++ U2)
      = [cl] ++ dropRightWhile isStrip U2 := by
    rw [dropRightWhile_append]
    by_cases hq : (dropRightWhile isStrip U2).isEmpty
    · rw [if_pos hq, dropRightWhile_singleton, hcl, ite_cond_false,
        List.isEmpty_iff.mp hq, List.append_nil]
    · rw [if_neg hq]
  rw [hinner, List.singleton_append, List.isEmpty_cons, ite_cond_false]

/-- Master lemma for idempotence: a line of the shape
`P ++ ((cf :: W1) ++ Q)` — an already-stripped pre-word part `P` with no
endings and at most 4 whitespace, a word starting at the non-strip `cf` and
ending at the non-strip `cl`, and an already-right-stripped post-word part
`Q` with no endings and at most 4 whitespace — extracts to itself when the
word span is `[P.length, P.length + (cf :: W1).length)`. -/
theorem sentence_rerun (P W1 W2 Q U2 : List Char) (cf cl : Char)
    (hcf : isStrip cf = false) (hcl : isStrip cl = false)
    (hWeq : cf :: W1 = W2 ++ [cl])
    (hPidem : P.dropWhile isStrip = P)
    (hQ : dropRightWhile isStrip U2 = Q)
    (hPne : ∀ x ∈ P, isEnding x = false) (hPws : P.countP isJsSpace ≤ 4)
    (hQne : ∀ x ∈ Q, isEnding x = false) (hQws : Q.countP isJsSpace ≤ 4) :
    sentenceFromLine (P ++ ((cf :: W1) ++ Q)) (P.length : Int)
        ((P.length : Int) + ((cf :: W1).length : Int))
      = P ++ ((cf :: W1) ++ Q) := by
  have hlen : (P ++ ((cf :: W1) ++ Q)).length
      = P.length + ((W1.length + 1) + Q.length) := by
    simp [List.length_append]
    omega
  -- the backward scan runs to 0
  have hback : findWordBoundaries (P ++ ((cf :: W1) ++ Q)) (P.length : Int) (-1)
      = fwbBack (P ++ ((cf :: W1) ++ Q)) 0 (P.length + 1) := by
    rw [findWordBoundaries, if_pos rfl, if_neg (by omega), Int.toNat_natCast]
  have hseg1 : segN (P ++ ((cf :: W1) ++ Q)) 0 (P.length + 1) = P ++ [cf] := by
    rw [segN_zero, show (cf :: W1) ++ Q = cf :: (W1 ++ Q) from by
      rw [List.cons_append], List.take_append, List.take_succ_cons,
      List.take_zero]
  have hrun1 : (fwbBack (P ++ ((cf :: W1) ++ Q)) 0 (P.length + 1)).1 = 0 := by
    apply fwbBack_runs_to_zero
    · rw [hlen]
      omega
    · rw [hseg1]
      intro x hx
      rcases List.mem_append.mp hx with hx | hx
      · exact hPne x hx
      · rcases List.mem_singleton.mp hx with rfl
        exact not_isEnding_of_not_isStrip hcf
    · rw [hseg1, List.countP_append, List.countP_cons, List.countP_nil,
        not_isJsSpace_of_not_isStrip hcf, ite_cond_false]
      omega
  -- the forward scan runs to the length
  have hstart : ((P.length : Int) + ((cf :: W1).length : Int)).toNat
      = P.length + (W1.length + 1) := by
    simp [List.length_cons]
    omega
  have hfwd : findWordBoundaries (P ++ ((cf :: W1) ++ Q))
        ((P.length : Int) + ((cf :: W1).length : Int)) 1
      = fwbFwd (P ++ ((cf :: W1) ++ Q)) 0 Q.length := by
    rw [findWordBoundaries, if_neg (by decide), if_neg (by
      rw [hlen]
      simp only [List.length_cons]
      omega)]
    congr 1
    rw [hstart, hlen]
    omega
  have hseg2 : segN (P ++ ((cf :: W1) ++ Q))
      ((P ++ ((cf :: W1) ++ Q)).length - Q.length)
      (P ++ ((cf :: W1) ++ Q)).length = Q := by
    have hidx : (P ++ ((cf :: W1) ++ Q)).length - Q.length
        = (P ++ (cf :: W1)).length := by
      rw [hlen]
      simp [List.length_append]
      omega
    rw [segN, List.take_length, hidx,
      show P ++ ((cf :: W1) ++ Q) = (P ++ (cf :: W1)) ++ Q from by
        rw [List.append_assoc],
      show (P ++ (cf :: W1)).length = (P ++ (cf :: W1)).length + 0 from rfl,
      List.drop_append, List.drop_zero]
  have hrun2 : (fwbFwd (P ++ ((cf :: W1) ++ Q)) 0 Q.length).1
      = ((P ++ ((cf :: W1) ++ Q)).length : Int) := by
    apply fwbFwd_runs_to_length
    · rw [hlen]
      omega
    · rw [hseg2]
      exact hQne
    · rw [hseg2]
      omega
  -- assemble
  simp only [sentenceFromLine]
  rw [hback, hrun1, hfwd, hrun2, jsSubstring_zero_length]
  -- stripping the already-stripped line is the identity
  rw [stripEnds, dropWhile_append_decomp P W1 Q cf hcf, hPidem, hWeq]
  have hQidem : dropRightWhile isStrip Q = Q := by
    rw [← hQ, dropRightWhile_idempotent]
  rw [dropRightWhile_decomp P W2 Q cl hcl, hQidem]

theorem length_dropWhile_le (p : Char → Bool) (l : List Char) :
    (l.dropWhile p).length ≤ l.length := by
  induction l with
  | nil => simp
  | cons a as ih =>
    rw [List.dropWhile_cons]
    split
    · exact le_trans ih (by simp)
    · exact le_refl _

/-- C8: sentence extraction is idempotent on its output.  For every line
and word span (a span `[f, t)` inside the line whose first and last
characters are word characters, i.e. not in the `[.!?\s]` class),
re-running extraction on the already-extracted, trimmed sentence treated as
a fresh line — with the word span translated to its position in that
substring — yields the same sentence. -/
theorem c8_sentence_extraction_idempotent (line : List Char) (f t : Int)
    (hf : 0 ≤ f) (hft : f < t) (ht : t ≤ (line.length : Int))
    (hwf : isStrip (line.getD f.toNat ' ') = false)
    (hwl : isStrip (line.getD (t - 1).toNat ' ') = false) :
    sentenceFromLine (sentenceFromLine line f t) (translatedFrom line f t)
        (translatedFrom line f t + (t - f))
      = sentenceFromLine line f t := by
  have hback : findWordBoundaries line f (-1) = fwbBack line 0 (f.toNat + 1) := by
    rw [findWordBoundaries, if_pos rfl, if_neg (by omega)]
  have hfwd : findWordBoundaries line t 1
      = fwbFwd line 0 (line.length - t.toNat) := by
    rw [findWordBoundaries, if_neg (by decide), if_neg (by omega)]
  obtain ⟨hs0, hs1, hPne, hPws⟩ := fwbBack_spec line f.toNat 0 (by omega) (by omega)
  obtain ⟨he0, he1, hQne, hQws⟩ :=
    fwbFwd_spec line (line.length - t.toNat) 0 (by omega) (by omega)
  have hbase : line.length - (line.length - t.toNat) = t.toNat := by omega
  rw [hbase] at hQne hQws
  have hUeq : jsSubstring line (fwbBack line 0 (f.toNat + 1)).1
        (fwbFwd line 0 (line.length - t.toNat)).1
      = segN line ((fwbBack line 0 (f.toNat + 1)).1).toNat
        ((fwbFwd line 0 (line.length - t.toNat)).1).toNat :=
    jsSubstring_eq_segN line _ _ hs0 (by omega) (by omega)
  have hfn : f.toNat < line.length := by omega
  have hW1 : segN line f.toNat t.toNat
      = line.getD f.toNat ' ' :: segN line (f.toNat + 1) t.toNat := by
    rw [segN_append line f.toNat (f.toNat + 1) t.toNat (by omega) (by omega)
        (by omega),
      segN_singleton line f.toNat hfn, List.singleton_append]
  have hclseg : segN line (t.toNat - 1) t.toNat = [line.getD (t.toNat - 1) ' '] := by
    have h1 : t.toNat = t.toNat - 1 + 1 := by omega
    calc segN line (t.toNat - 1) t.toNat
        = segN line (t.toNat - 1) (t.toNat - 1 + 1) := by rw [← h1]
      _ = [line.getD (t.toNat - 1) ' '] :=
        segN_singleton line (t.toNat - 1) (by omega)
  have hW2 : segN line f.toNat t.toNat
      = segN line f.toNat (t.toNat - 1) ++ [line.getD (t.toNat - 1) ' '] := by
    rw [segN_append line f.toNat (t.toNat - 1) t.toNat (by omega) (by omega)
        (by omega), hclseg]
  have hWeq : line.getD f.toNat ' ' :: segN line (f.toNat + 1) t.toNat
      = segN line f.toNat (t.toNat - 1) ++ [line.getD (t.toNat - 1) ' '] := by
    rw [← hW1, hW2]
  have hwl2 : isStrip (line.getD (t.toNat - 1) ' ') = false := by
    have h2 : t.toNat - 1 = (t - 1).toNat := by omega
    rw [h2]
    exact hwl
  have hsplitU : segN line ((fwbBack line 0 (f.toNat + 1)).1).toNat
        ((fwbFwd line 0 (line.length - t.toNat)).1).toNat
      = segN line ((fwbBack line 0 (f.toNat + 1)).1).toNat f.toNat
        ++ ((line.getD f.toNat ' ' :: segN line (f.toNat + 1) t.toNat)
          ++ segN line t.toNat
            ((fwbFwd line 0 (line.length - t.toNat)).1).toNat) := by
    rw [segN_append line ((fwbBack line 0 (f.toNat + 1)).1).toNat f.toNat
        ((fwbFwd line 0 (line.length - t.toNat)).1).toNat (by omega) (by omega)
        (by omega),
      segN_append line f.toNat t.toNat
        ((fwbFwd line 0 (line.length - t.toNat)).1).toNat (by omega) (by omega)
        (by omega),
      hW1]
  have hU' : (segN line ((fwbBack line 0 (f.toNat + 1)).1).toNat
        ((fwbFwd line 0 (line.length - t.toNat)).1).toNat).dropWhile isStrip
      = (segN line ((fwbBack line 0 (f.toNat + 1)).1).toNat f.toNat).dropWhile
          isStrip
        ++ ((line.getD f.toNat ' ' :: segN line (f.toNat + 1) t.toNat)
          ++ segN line t.toNat
            ((fwbFwd line 0 (line.length - t.toNat)).1).toNat) := by
    rw [hsplitU]
    exact dropWhile_append_decomp _ _ _ _ hwf
  have hT : sentenceFromLine line f t
      = (segN line ((fwbBack line 0 (f.toNat + 1)).1).toNat f.toNat).dropWhile
          isStrip
        ++ ((line.getD f.toNat ' ' :: segN line (f.toNat + 1) t.toNat)
          ++ dropRightWhile isStrip (segN line t.toNat
            ((fwbFwd line 0 (line.length - t.toNat)).1).toNat)) := by
    simp only [sentenceFromLine]
    rw [hback, hfwd, hUeq, stripEnds, hU', hWeq]
    exact dropRightWhile_decomp _ _ _ _ hwl2
  have hDeq : (segN line ((fwbBack line 0 (f.toNat + 1)).1).toNat
        (f.toNat + 1)).dropWhile isStrip
      = (segN line ((fwbBack line 0 (f.toNat + 1)).1).toNat f.toNat).dropWhile
          isStrip ++ [line.getD f.toNat ' '] := by
    rw [segN_append line ((fwbBack line 0 (f.toNat + 1)).1).toNat f.toNat
        (f.toNat + 1) (by omega) (by omega) (by omega),
      segN_singleton line f.toNat hfn]
    have h4 := dropWhile_append_decomp
      (segN line ((fwbBack line 0 (f.toNat + 1)).1).toNat f.toNat) [] []
      (line.getD f.toNat ' ') hwf
    simpa using h4
  rw [hDeq] at hPne hPws
  have hPne2 : ∀ x ∈ (segN line ((fwbBack line 0 (f.toNat + 1)).1).toNat
      f.toNat).dropWhile isStrip, isEnding x = false :=
    fun x hx => hPne x (List.mem_append_left _ hx)
  have hPws2 : ((segN line ((fwbBack line 0 (f.toNat + 1)).1).toNat
      f.toNat).dropWhile isStrip).countP isJsSpace ≤ 4 := by
    rw [List.countP_append] at hPws
    omega
  have hQws2 : (dropRightWhile isStrip (segN line t.toNat
      ((fwbFwd line 0 (line.length - t.toNat)).1).toNat)).countP isJsSpace ≤ 4 := by
    omega
  have hU1len : (segN line ((fwbBack line 0 (f.toNat + 1)).1).toNat f.toNat).length
      = f.toNat - ((fwbBack line 0 (f.toNat + 1)).1).toNat :=
    segN_length line _ _ (by omega) (by omega)
  have hPle : ((segN line ((fwbBack line 0 (f.toNat + 1)).1).toNat
        f.toNat).dropWhile isStrip).length
      ≤ (segN line ((fwbBack line 0 (f.toNat + 1)).1).toNat f.toNat).length :=
    length_dropWhile_le _ _
  have hUlen := congrArg List.length hsplitU
  simp only [List.length_append, List.length_cons] at hUlen
  have htrans : translatedFrom line f t
      = ((((segN line ((fwbBack line 0 (f.toNat + 1)).1).toNat
          f.toNat).dropWhile isStrip).length : Nat) : Int) := by
    simp only [translatedFrom]
    rw [hback, hfwd, hUeq, hU']
    simp only [List.length_append, List.length_cons]
    omega
  have hWlen : (segN line f.toNat t.toNat).length = t.toNat - f.toNat :=
    segN_length line _ _ (by omega) (by omega)
  have hWlen2 := congrArg List.length hW1
  simp only [List.length_cons] at hWlen2
  have htf : t - f
      = (((line.getD f.toNat ' ' :: segN line (f.toNat + 1) t.toNat).length : Nat)
        : Int) := by
    simp only [List.length_cons]
    omega
  rw [hT, htrans, htf]
  exact sentence_rerun
    ((segN line ((fwbBack line 0 (f.toNat + 1)).1).toNat f.toNat).dropWhile
      isStrip)
    (segN line (f.toNat + 1) t.toNat)
    (segN line f.toNat (t.toNat - 1))
    (dropRightWhile isStrip (segN line t.toNat
      ((fwbFwd line 0 (line.length - t.toNat)).1).toNat))
    (segN line t.toNat ((fwbFwd line 0 (line.length - t.toNat)).1).toNat)
    (line.getD f.toNat ' ') (line.getD (t.toNat - 1) ' ')
    hwf hwl2 hWeq (List.dropWhile_idempotent _ _) rfl
    hPne2 hPws2 hQne hQws2

/-- Witness for C8 at the concrete line
"The quick brown fox jumps. Over the lazy dog." with the word span of
"jumps" (columns 20–25). -/
theorem c8_sentence_extraction_idempotent_witness :
    sentenceFromLine
        (sentenceFromLine "The quick brown fox jumps. Over the lazy dog.".data 20 25)
        (translatedFrom "The quick brown fox jumps. Over the lazy dog.".data 20 25)
        (translatedFrom "The quick brown fox jumps. Over the lazy dog.".data 20 25
          + (25 - 20))
      = sentenceFromLine "The quick brown fox jumps. Over the lazy dog.".data 20 25 :=
  c8_sentence_extraction_idempotent
    "The quick brown fox jumps. Over the lazy dog.".data 20 25
    (by decide) (by decide) (by decide) (by decide) (by decide)
